import Mathlib

/-!
Verification of the API-catalog generator
(`Data-Config/generate_api_catalog.py`).

The script resolves function-identifier keys against a service registry
(exact match first, then word-boundary prefix match), validates that every
key resolves, and builds a categorized catalog: one entry per function id
per match (schema path rewritten to embed the id), plus standalone entries
for registry services no key matched.

Strings are modelled by Lean `String` (a wrapper around `List Char`);
Python dictionaries by association lists with dictionary update semantics
(updating an existing key keeps its position, new keys append at the end),
which matches Python's insertion-ordered `dict`.
-/

namespace APICatalog

/-- A service definition from `services.json`.  Python reads the fields with
`service.get("API Name")`, `service.get("Url", "")`, `service.get("Schema
Location", "")`, `service.get("tag", "")`; an absent field is modelled by the
empty string, which has the same truthiness in every use site. -/
structure ServiceInfo where
  apiName : String
  url : String
  schemaLocation : String
  tag : String
deriving Repr, DecidableEq

/-- A single catalog row built by `generate_api_catalog`. -/
structure APIEntry where
  apiName : String
  url : String
  schemaLocation : String
  tag : String
deriving Repr, DecidableEq

/-- First-occurrence lookup in an association list: Python `d[k]` / `k in d`
(a Python dict never has duplicate keys, so first = only). -/
def lookupDict {α : Type} : List (String × α) → String → Option α
  | [], _ => none
  | p :: rest, k => if p.1 = k then some p.2 else lookupDict rest k

/-- Python `d[k] = v`: update the existing binding in place (keeping its
position) or append a new one at the end. -/
def dictInsert {α : Type} : List (String × α) → String → α → List (String × α)
  | [], k, v => [(k, v)]
  | p :: rest, k, v => if p.1 = k then (k, v) :: rest else p :: dictInsert rest k v

/-- `convert_services_to_dict`: key the services array by non-empty
`API Name`; a falsy (absent or empty) name is skipped. -/
def convert_services_to_dict (services_array : List ServiceInfo) :
    List (String × ServiceInfo) :=
  services_array.foldl
    (fun d s => if s.apiName ≠ "" then dictInsert d s.apiName s else d) []

/-- `find_matching_services`: exact match first; otherwise collect every
registry name starting with `service_name ++ " "`, in registry order. -/
def find_matching_services (service_name : String)
    (services_dict : List (String × ServiceInfo)) :
    List (String × ServiceInfo) :=
  match lookupDict services_dict service_name with
  | some info => [(service_name, info)]
  | none =>
      services_dict.filter
        (fun p => (service_name ++ " ").data.isPrefixOf p.1.data)

/-- The `missing_keys` list accumulated by `validate_keys`: every mapping key
whose match list is empty, in mapping order. -/
def missing_keys (service_function_ids : List (String × List String))
    (services_dict : List (String × ServiceInfo)) : List String :=
  service_function_ids.foldl
    (fun acc kf =>
      if find_matching_services kf.1 services_dict = [] then acc ++ [kf.1]
      else acc) []

/-- `validate_keys` returns `True` exactly when no key is missing. -/
def validate_keys (service_function_ids : List (String × List String))
    (services_dict : List (String × ServiceInfo)) : Bool :=
  missing_keys service_function_ids services_dict = []

/-- Split a character list at the LAST occurrence of `c` (Python
`s.rsplit(c, 1)`); `none` when `c` does not occur. -/
def rsplitLast (c : Char) : List Char → Option (List Char × List Char)
  | [] => none
  | x :: xs =>
      match rsplitLast c xs with
      | some (p, f) => some (x :: p, f)
      | none => if x = c then some ([], xs) else none

/-- The filename step of the schema rewrite: split on the last `.`;
`stem-fid.ext` when an extension exists, else `filename-fid`. -/
def new_filename (filename fid : List Char) : List Char :=
  match rsplitLast '.' filename with
  | some (stem, ext) => stem ++ '-' :: fid ++ '.' :: ext
  | none => filename ++ '-' :: fid

/-- The inline schema-location rewrite of `generate_api_catalog`: empty in,
empty out; split off the directory at the last `/` (`path_part = ""` when
there is no `/`); rebuild with `path_part + "/" + new_filename` only when
`path_part` is non-empty (Python `if path_part:`). -/
def rewrite_schema_chars (original fid : List Char) : List Char :=
  if original = [] then []
  else
    let pf : List Char × List Char :=
      match rsplitLast '/' original with
      | some (p, f) => (p, f)
      | none => ([], original)
    let nf := new_filename pf.2 fid
    if pf.1 = [] then nf else pf.1 ++ '/' :: nf

/-- String wrapper for the schema rewrite. -/
def rewrite_schema (original fid : String) : String :=
  ⟨rewrite_schema_chars original.data fid.data⟩

/-- Python `str.lower()` (ASCII suffices for the tags in play). -/
def lowerStr (s : String) : String := ⟨s.data.map Char.toLower⟩

/-- Category dispatch on the (lowered) tag: `true` = REST, `false` = SOAP;
anything other than `"soap"` defaults to REST. -/
def categoryOf (tag : String) : Bool :=
  if tag = "rest" then true
  else if tag = "soap" then false
  else true

/-- The catalog: group-keyed entry lists for each transport category. -/
structure Catalog where
  rest : List (String × List APIEntry)
  soap : List (String × List APIEntry)
deriving Repr, DecidableEq

/-- `catalog[category].setdefault(k, []).append(e)` on one category:
append to the existing group (kept in place) or start a new group at the
end. -/
def catAppend : List (String × List APIEntry) → String → APIEntry →
    List (String × List APIEntry)
  | [], k, e => [(k, [e])]
  | p :: rest, k, e =>
      if p.1 = k then (p.1, p.2 ++ [e]) :: rest else p :: catAppend rest k e

/-- Append one entry to group `k` of the selected category. -/
def catalogAppend (c : Catalog) (isRest : Bool) (k : String) (e : APIEntry) :
    Catalog :=
  if isRest then { c with rest := catAppend c.rest k e }
  else { c with soap := catAppend c.soap k e }

/-- The entries one `(matched service, key)` pair contributes in pass 1:
one bare entry when `function_ids` is empty, else one entry per function id
with the name suffixed and the schema location rewritten.  The tag stored is
the lowered tag. -/
def entriesFor (matchedName : String) (info : ServiceInfo)
    (function_ids : List String) : List APIEntry :=
  if function_ids = [] then
    [{ apiName := matchedName, url := info.url,
       schemaLocation := info.schemaLocation, tag := lowerStr info.tag }]
  else
    function_ids.map (fun fid =>
      { apiName := matchedName ++ " " ++ fid, url := info.url,
        schemaLocation := rewrite_schema info.schemaLocation fid,
        tag := lowerStr info.tag })

/-- The standalone entry pass 2 emits for an unprocessed service. -/
def standaloneEntry (name : String) (info : ServiceInfo) : APIEntry :=
  { apiName := name, url := info.url, schemaLocation := info.schemaLocation,
    tag := lowerStr info.tag }

/-- Pass-1 body for one matched service: mark it processed and append its
entries to the group keyed by the mapping key, in the category given by its
lowered tag. -/
def processOneMatch (key : String) (function_ids : List String)
    (st : Catalog × List String) (mt : String × ServiceInfo) :
    Catalog × List String :=
  let tag := lowerStr mt.2.tag
  let isRest := categoryOf tag
  ((entriesFor mt.1 mt.2 function_ids).foldl
      (fun c e => catalogAppend c isRest key e) st.1,
   mt.1 :: st.2)

/-- Pass-1 body for one mapping key: resolve it and process every match
(no matches fall through with a warning, contributing nothing). -/
def processKey (services_dict : List (String × ServiceInfo))
    (st : Catalog × List String) (kf : String × List String) :
    Catalog × List String :=
  (find_matching_services kf.1 services_dict).foldl
    (processOneMatch kf.1 kf.2) st

/-- Pass 1 of `generate_api_catalog`: fold the mapping over an empty catalog
and an empty processed set. -/
def pass1 (service_function_ids : List (String × List String))
    (services_dict : List (String × ServiceInfo)) : Catalog × List String :=
  service_function_ids.foldl (processKey services_dict) (⟨[], []⟩, [])

/-- Pass-2 body: a service not yet processed gets one standalone entry under
its own name. -/
def pass2step (processed : List String) (c : Catalog)
    (p : String × ServiceInfo) : Catalog :=
  if p.1 ∈ processed then c
  else catalogAppend c (categoryOf (lowerStr p.2.tag)) p.1
    (standaloneEntry p.1 p.2)

/-- `generate_api_catalog`: pass 1 over the mapping, then pass 2 over the
registry. -/
def generate_api_catalog (service_function_ids : List (String × List String))
    (services_dict : List (String × ServiceInfo)) : Catalog :=
  let st := pass1 service_function_ids services_dict
  services_dict.foldl (pass2step st.2) st.1

/-- All entries of a catalog, REST groups then SOAP groups, each group in
order. -/
def allEntries (c : Catalog) : List APIEntry :=
  (c.rest.map (·.2)).flatten ++ (c.soap.map (·.2)).flatten

/-- The entries a single mapping key contributes in pass 1, across all its
matches. -/
def keyEntries (key : String) (function_ids : List String)
    (services_dict : List (String × ServiceInfo)) : List APIEntry :=
  (find_matching_services key services_dict).flatMap
    (fun mt => entriesFor mt.1 mt.2 function_ids)

/-- All entries pass 1 contributes, in mapping order. -/
def pass1Entries (service_function_ids : List (String × List String))
    (services_dict : List (String × ServiceInfo)) : List APIEntry :=
  service_function_ids.flatMap (fun kf => keyEntries kf.1 kf.2 services_dict)

/-- All entries pass 2 contributes: one standalone entry per registry
service that pass 1 did not process. -/
def pass2Entries (service_function_ids : List (String × List String))
    (services_dict : List (String × ServiceInfo)) : List APIEntry :=
  (services_dict.filter
      (fun p => ¬ p.1 ∈ (pass1 service_function_ids services_dict).2)).map
    (fun p => standaloneEntry p.1 p.2)


/-- Service names matched (and hence marked processed) by pass 1, in
emission order. -/
def matchedNames (service_function_ids : List (String × List String))
    (services_dict : List (String × ServiceInfo)) : List String :=
  service_function_ids.flatMap
    (fun kf => (find_matching_services kf.1 services_dict).map (·.1))

/-! ### Concrete data used in witnesses and counterexamples -/

/-- The registry row of the end-to-end scenario. -/
def infoLOV : ServiceInfo := ⟨"Get LOV", "https://x", "s/lov.xsd", "rest"⟩

/-- A registry row named `"B"`. -/
def infoB : ServiceInfo := ⟨"B", "u", "s", "rest"⟩

/-- A registry row named `"A B"`. -/
def infoAB : ServiceInfo := ⟨"A B", "u", "s", "rest"⟩

/-- A registry row named `"A C"`. -/
def infoAC : ServiceInfo := ⟨"A C", "u2", "s2", "rest"⟩

/-- A registry row whose tag is upper-case `"REST"`. -/
def infoUpper : ServiceInfo := ⟨"A", "u", "s", "REST"⟩

/-! ### Lookup and matcher lemmas -/

theorem lookupDict_mem {α : Type} {d : List (String × α)} {k : String} {v : α}
    (h : lookupDict d k = some v) : (k, v) ∈ d := by
  induction d with
  | nil => simp [lookupDict] at h
  | cons p rest ih =>
      by_cases hp : p.1 = k
      · simp [lookupDict, hp] at h
        subst hp
        subst h
        exact List.mem_cons_self _ _
      · simp [lookupDict, hp] at h
        exact List.mem_cons_of_mem _ (ih h)

theorem find_matching_mem {k : String} {d : List (String × ServiceInfo)}
    {mt : String × ServiceInfo} (h : mt ∈ find_matching_services k d) :
    mt ∈ d := by
  unfold find_matching_services at h
  cases hl : lookupDict d k with
  | some info =>
      rw [hl] at h
      simp at h
      subst h
      exact lookupDict_mem hl
  | none =>
      rw [hl] at h
      exact (List.mem_filter.mp h).1

theorem missing_keys_aux (d : List (String × ServiceInfo)) :
    ∀ (m : List (String × List String)) (acc : List String),
      m.foldl
        (fun acc kf =>
          if find_matching_services kf.1 d = [] then acc ++ [kf.1] else acc)
        acc
      = acc ++ (m.map (·.1)).filter (fun k => find_matching_services k d = []) := by
  intro m
  induction m with
  | nil => intro acc; simp
  | cons kf rest ih =>
      intro acc
      by_cases h : find_matching_services kf.1 d = []
      · simp only [List.foldl_cons, List.map_cons, h, if_pos h, ih]
        simp [List.filter_cons, h]
      · simp only [List.foldl_cons, List.map_cons, if_neg h, ih]
        simp [List.filter_cons, h]

theorem missing_keys_eq_filter (m : List (String × List String))
    (d : List (String × ServiceInfo)) :
    missing_keys m d
      = (m.map (·.1)).filter (fun k => find_matching_services k d = []) := by
  unfold missing_keys
  simpa using missing_keys_aux d m []

/-! ### Claim theorems: Matcher and Validator -/

/-- C1.  Exact match takes absolute precedence: whenever the key is itself a
registered service name, the Matcher returns exactly the single pair
`(key, definition)` — no prefix search happens, whatever else is in the
registry. -/
theorem exact_match_returns_single_pair (K : String)
    (d : List (String × ServiceInfo)) (info : ServiceInfo)
    (h : lookupDict d K = some info) :
    find_matching_services K d = [(K, info)] := by
  unfold find_matching_services
  rw [h]

/-- Witness for `exact_match_returns_single_pair`: the end-to-end registry,
keyed by its own service name, in the presence of a longer prefix-matching
name. -/
theorem exact_match_returns_single_pair_witness :
    find_matching_services "Get LOV" [("Get LOV", infoLOV), ("Get LOV X", infoB)]
      = [("Get LOV", infoLOV)] :=
  exact_match_returns_single_pair "Get LOV"
    [("Get LOV", infoLOV), ("Get LOV X", infoB)] infoLOV (by decide)

/-- C2.  With no exact match, the Matcher returns exactly the services whose
name starts with `K ++ " "` — membership characterization, order preservation
(the result is a sublist of the registry), and emptiness when nothing
word-boundary-matches. -/
theorem prefix_match_characterization (K : String)
    (d : List (String × ServiceInfo)) (h : lookupDict d K = none) :
    (∀ p, p ∈ find_matching_services K d ↔
        p ∈ d ∧ (K ++ " ").data <+: p.1.data)
    ∧ List.Sublist (find_matching_services K d) d
    ∧ ((∀ p, p ∈ d → ¬ (K ++ " ").data <+: p.1.data) →
        find_matching_services K d = []) := by
  unfold find_matching_services
  rw [h]
  refine ⟨fun p => ?_, List.filter_sublist _, fun hnone => ?_⟩
  · rw [List.mem_filter, List.isPrefixOf_iff_prefix]
  · rw [List.filter_eq_nil_iff]
    intro p hp
    simpa [List.isPrefixOf_iff_prefix] using hnone p hp

/-- Witness for `prefix_match_characterization`: key `"Get Card"` against a
registry holding `"Get Cards"` (raw prefix, no word boundary) and
`"Get Card Bin"` (word-boundary prefix). -/
theorem prefix_match_characterization_witness :
    (("Get Card A", infoB) ∈
        find_matching_services "Get Card"
          [("Get Cards", infoAB), ("Get Card A", infoB)]
      ↔ ("Get Card A", infoB) ∈
          [("Get Cards", infoAB), ("Get Card A", infoB)]
        ∧ ("Get Card ").data <+: ("Get Card A").data)
    ∧ List.Sublist
        (find_matching_services "Get Card"
          [("Get Cards", infoAB), ("Get Card A", infoB)])
        [("Get Cards", infoAB), ("Get Card A", infoB)] := by
  have h := prefix_match_characterization "Get Card"
    [("Get Cards", infoAB), ("Get Card A", infoB)] (by decide)
  exact ⟨h.1 _, h.2.1⟩

/-- C3.  The Validator is exhaustive: its failure list is the in-order list
of ALL keys the Matcher resolves to nothing (never just the first), the
result is pass exactly when that list is empty, and on the concrete keys
`A, B, C` against a registry holding only `B` the failure list is exactly
`["A", "C"]`. -/
theorem validator_batch_exhaustive :
    (∀ (m : List (String × List String)) (d : List (String × ServiceInfo)),
      missing_keys m d
        = (m.map (·.1)).filter (fun k => find_matching_services k d = [])
      ∧ validate_keys m d = (missing_keys m d).isEmpty)
    ∧ missing_keys [("A", []), ("B", []), ("C", [])] [("B", infoB)]
        = ["A", "C"] := by
  refine ⟨fun m d => ⟨missing_keys_eq_filter m d, ?_⟩, by decide⟩
  unfold validate_keys
  rw [Bool.eq_iff_iff, decide_eq_true_iff, List.isEmpty_iff]

/-! ### Catalog-builder accounting lemmas

`catAppend` only decides WHERE an entry lands; as a multiset the catalog
always gains exactly the appended entry.  Folding that observation through
the two passes yields a permutation decomposition of `allEntries`.
-/

theorem flatten_map_catAppend (l : List (String × List APIEntry))
    (k : String) (e : APIEntry) :
    List.Perm (((catAppend l k e).map (·.2)).flatten)
      (e :: (l.map (·.2)).flatten) := by
  induction l with
  | nil => simp [catAppend]
  | cons p rest ih =>
      by_cases hp : p.1 = k
      · simp only [catAppend, if_pos hp, List.map_cons, List.flatten_cons]
        rw [List.append_assoc]
        exact List.perm_middle
      · simp only [catAppend, if_neg hp, List.map_cons, List.flatten_cons]
        exact ((ih.append_left p.2).trans List.perm_middle)

theorem allEntries_catalogAppend (c : Catalog) (b : Bool) (k : String)
    (e : APIEntry) :
    List.Perm (allEntries (catalogAppend c b k e)) (e :: allEntries c) := by
  cases b with
  | true =>
      rw [show catalogAppend c true k e = { c with rest := catAppend c.rest k e }
        by simp [catalogAppend]]
      simp only [allEntries]
      exact (flatten_map_catAppend c.rest k e).append_right _
  | false =>
      rw [show catalogAppend c false k e = { c with soap := catAppend c.soap k e }
        by simp [catalogAppend]]
      simp only [allEntries]
      exact (((flatten_map_catAppend c.soap k e).append_left _).trans
        List.perm_middle)

theorem allEntries_foldl_catalogAppend (b : Bool) (k : String) :
    ∀ (es : List APIEntry) (c : Catalog),
      List.Perm (allEntries (es.foldl (fun c e => catalogAppend c b k e) c))
        (allEntries c ++ es) := by
  intro es
  induction es with
  | nil => intro c; simp
  | cons e rest ih =>
      intro c
      simp only [List.foldl_cons]
      exact (ih (catalogAppend c b k e)).trans
        ((((allEntries_catalogAppend c b k e).append_right rest).trans
          List.perm_middle.symm))

theorem foldl_processOneMatch_entries (key : String) (fids : List String) :
    ∀ (ms : List (String × ServiceInfo)) (st : Catalog × List String),
      List.Perm
        (allEntries ((ms.foldl (processOneMatch key fids) st).1))
        (allEntries st.1 ++ ms.flatMap (fun mt => entriesFor mt.1 mt.2 fids)) := by
  intro ms
  induction ms with
  | nil => intro st; simp
  | cons mt rest ih =>
      intro st
      simp only [List.foldl_cons, List.flatMap_cons]
      refine (ih (processOneMatch key fids st mt)).trans ?_
      have h1 : List.Perm (allEntries (processOneMatch key fids st mt).1)
          (allEntries st.1 ++ entriesFor mt.1 mt.2 fids) := by
        simpa [processOneMatch] using
          allEntries_foldl_catalogAppend (categoryOf (lowerStr mt.2.tag)) key
            (entriesFor mt.1 mt.2 fids) st.1
      rw [← List.append_assoc]
      exact h1.append_right _

theorem foldl_processOneMatch_processed (key : String) (fids : List String) :
    ∀ (ms : List (String × ServiceInfo)) (st : Catalog × List String),
      (ms.foldl (processOneMatch key fids) st).2
        = (ms.map (·.1)).reverse ++ st.2 := by
  intro ms
  induction ms with
  | nil => intro st; simp
  | cons mt rest ih =>
      intro st
      simp only [List.foldl_cons]
      rw [ih]
      simp [processOneMatch, List.append_assoc]

theorem pass1Entries_cons (kf : String × List String)
    (rest : List (String × List String)) (d : List (String × ServiceInfo)) :
    pass1Entries (kf :: rest) d
      = keyEntries kf.1 kf.2 d ++ pass1Entries rest d := by
  simp [pass1Entries]

theorem matchedNames_cons (kf : String × List String)
    (rest : List (String × List String)) (d : List (String × ServiceInfo)) :
    matchedNames (kf :: rest) d
      = (find_matching_services kf.1 d).map (·.1) ++ matchedNames rest d := by
  simp [matchedNames]

theorem foldl_processKey_entries (d : List (String × ServiceInfo)) :
    ∀ (m : List (String × List String)) (st : Catalog × List String),
      List.Perm (allEntries ((m.foldl (processKey d) st).1))
        (allEntries st.1 ++ pass1Entries m d) := by
  intro m
  induction m with
  | nil => intro st; simp [pass1Entries]
  | cons kf rest ih =>
      intro st
      simp only [List.foldl_cons]
      refine (ih (processKey d st kf)).trans ?_
      have h1 : List.Perm (allEntries (processKey d st kf).1)
          (allEntries st.1 ++ keyEntries kf.1 kf.2 d) :=
        foldl_processOneMatch_entries kf.1 kf.2 _ st
      rw [pass1Entries_cons, ← List.append_assoc]
      exact h1.append_right _

theorem foldl_processKey_processed (d : List (String × ServiceInfo)) :
    ∀ (m : List (String × List String)) (st : Catalog × List String),
      (m.foldl (processKey d) st).2 = (matchedNames m d).reverse ++ st.2 := by
  intro m
  induction m with
  | nil => intro st; simp [matchedNames]
  | cons kf rest ih =>
      intro st
      simp only [List.foldl_cons]
      rw [ih]
      unfold processKey
      rw [foldl_processOneMatch_processed, matchedNames_cons,
        List.reverse_append, List.append_assoc]

theorem pass1_entries_perm (m : List (String × List String))
    (d : List (String × ServiceInfo)) :
    List.Perm (allEntries (pass1 m d).1) (pass1Entries m d) := by
  unfold pass1
  simpa [allEntries] using foldl_processKey_entries d m (⟨[], []⟩, [])

theorem pass1_processed_eq (m : List (String × List String))
    (d : List (String × ServiceInfo)) :
    (pass1 m d).2 = (matchedNames m d).reverse := by
  unfold pass1
  simpa using foldl_processKey_processed d m (⟨[], []⟩, [])

theorem mem_pass1_processed (m : List (String × List String))
    (d : List (String × ServiceInfo)) (s : String) :
    s ∈ (pass1 m d).2 ↔
      ∃ kf, kf ∈ m ∧ ∃ mt, mt ∈ find_matching_services kf.1 d ∧ mt.1 = s := by
  rw [pass1_processed_eq, List.mem_reverse]
  unfold matchedNames
  rw [List.mem_flatMap]
  constructor
  · rintro ⟨kf, hkf, hs⟩
    rcases List.mem_map.mp hs with ⟨mt, hmt, rfl⟩
    exact ⟨kf, hkf, mt, hmt, rfl⟩
  · rintro ⟨kf, hkf, mt, hmt, rfl⟩
    exact ⟨kf, hkf, List.mem_map.mpr ⟨mt, hmt, rfl⟩⟩

theorem foldl_pass2step_entries (pr : List String) :
    ∀ (d : List (String × ServiceInfo)) (c : Catalog),
      List.Perm (allEntries (d.foldl (pass2step pr) c))
        (allEntries c
          ++ (d.filter (fun p => ¬ p.1 ∈ pr)).map
              (fun p => standaloneEntry p.1 p.2)) := by
  intro d
  induction d with
  | nil => intro c; simp
  | cons p rest ih =>
      intro c
      simp only [List.foldl_cons]
      by_cases hp : p.1 ∈ pr
      · rw [show pass2step pr c p = c by simp [pass2step, hp]]
        rw [show List.filter (fun q => ¬ q.1 ∈ pr) (p :: rest)
              = List.filter (fun q => ¬ q.1 ∈ pr) rest
            by simp [List.filter_cons, hp]]
        exact ih c
      · rw [show pass2step pr c p
              = catalogAppend c (categoryOf (lowerStr p.2.tag)) p.1
                  (standaloneEntry p.1 p.2)
            by simp [pass2step, hp]]
        rw [show List.filter (fun q => ¬ q.1 ∈ pr) (p :: rest)
              = p :: List.filter (fun q => ¬ q.1 ∈ pr) rest
            by simp [List.filter_cons, hp]]
        simp only [List.map_cons]
        refine (ih _).trans ?_
        refine ((allEntries_catalogAppend c _ p.1
          (standaloneEntry p.1 p.2)).append_right _).trans ?_
        exact List.perm_middle.symm

theorem allEntries_generate_perm (m : List (String × List String))
    (d : List (String × ServiceInfo)) :
    List.Perm (allEntries (generate_api_catalog m d))
      (pass1Entries m d ++ pass2Entries m d) := by
  unfold generate_api_catalog
  refine (foldl_pass2step_entries (pass1 m d).2 d (pass1 m d).1).trans ?_
  exact (pass1_entries_perm m d).append_right _

/-! ### Schema-rewriter lemmas -/

theorem rsplitLast_eq_none_iff (c : Char) : ∀ l : List Char,
    rsplitLast c l = none ↔ c ∉ l := by
  intro l
  induction l with
  | nil => simp [rsplitLast]
  | cons x xs ih =>
      rw [List.mem_cons, not_or]
      cases h : rsplitLast c xs with
      | some pf =>
          obtain ⟨p, f⟩ := pf
          have hc : c ∈ xs := by
            by_contra hc
            rw [← ih, h] at hc
            exact Option.noConfusion hc
          simp [rsplitLast, h, hc]
      | none =>
          have hc : c ∉ xs := ih.mp h
          by_cases hx : x = c
          · simp [rsplitLast, h, hx]
          · simp [rsplitLast, h, hx, hc]
            exact fun hcx => hx hcx.symm

theorem rsplitLast_append (c : Char) (f : List Char) (hf : c ∉ f) :
    ∀ p : List Char, rsplitLast c (p ++ c :: f) = some (p, f) := by
  intro p
  induction p with
  | nil =>
      simp only [List.nil_append, rsplitLast]
      rw [(rsplitLast_eq_none_iff c f).mpr hf]
      simp
  | cons x p ih =>
      have hstep : rsplitLast c ((x :: p) ++ c :: f) =
          match rsplitLast c (p ++ c :: f) with
          | some (q, g) => some (x :: q, g)
          | none => if x = c then some ([], p ++ c :: f) else none := rfl
      rw [hstep, ih]

/-! ### Entry shape and count lemmas -/

theorem entriesFor_shape {e : APIEntry} {n : String} {i : ServiceInfo}
    {fids : List String} (h : e ∈ entriesFor n i fids) :
    e.url = i.url ∧ e.tag = lowerStr i.tag
      ∧ (e.apiName = n ∨ ∃ fid, fid ∈ fids ∧ e.apiName = n ++ " " ++ fid) := by
  unfold entriesFor at h
  by_cases hf : fids = []
  · rw [if_pos hf] at h
    simp only [List.mem_singleton] at h
    subst h
    exact ⟨rfl, rfl, Or.inl rfl⟩
  · rw [if_neg hf] at h
    rcases List.mem_map.mp h with ⟨fid, hfid, rfl⟩
    exact ⟨rfl, rfl, Or.inr ⟨fid, hfid, rfl⟩⟩

theorem entriesFor_ne_nil (n : String) (i : ServiceInfo)
    (fids : List String) : entriesFor n i fids ≠ [] := by
  unfold entriesFor
  by_cases hf : fids = [] <;> simp [hf]

theorem entriesFor_length (n : String) (i : ServiceInfo)
    (fids : List String) :
    (entriesFor n i fids).length = if fids = [] then 1 else fids.length := by
  unfold entriesFor
  by_cases hf : fids = [] <;> simp [hf]

theorem nodup_keys_unique {d : List (String × ServiceInfo)}
    (hnd : (d.map (·.1)).Nodup) {k : String} {a b : ServiceInfo}
    (ha : (k, a) ∈ d) (hb : (k, b) ∈ d) : a = b := by
  induction d with
  | nil => cases ha
  | cons p rest ih =>
      simp only [List.map_cons, List.nodup_cons] at hnd
      rcases List.mem_cons.mp ha with ha' | ha'
      · rcases List.mem_cons.mp hb with hb' | hb'
        · exact congrArg Prod.snd (ha'.trans hb'.symm)
        · exfalso
          apply hnd.1
          rw [← ha']
          exact List.mem_map.mpr ⟨(k, b), hb', rfl⟩
      · rcases List.mem_cons.mp hb with hb' | hb'
        · exfalso
          apply hnd.1
          rw [← hb']
          exact List.mem_map.mpr ⟨(k, a), ha', rfl⟩
        · exact ih hnd.2 ha' hb'

/-! ### Claim theorems: Catalog Builder -/

/-- C4 counterexample.  The registry holds the single service `"A B"`; the
mapping keys `"A"` (prefix match) and `"A B"` (exact match) BOTH resolve to
it, validation passes, and the builder emits the same service definition
under TWO matched group keys — so it does not appear "exactly once overall,
under exactly one matched group key". -/
theorem service_double_emission_cex :
    validate_keys [("A", []), ("A B", [])] [("A B", infoAB)] = true
    ∧ generate_api_catalog [("A", []), ("A B", [])] [("A B", infoAB)]
        = { rest := [("A", [{ apiName := "A B", url := "u",
                              schemaLocation := "s", tag := "rest" }]),
                     ("A B", [{ apiName := "A B", url := "u",
                                schemaLocation := "s", tag := "rest" }])],
            soap := [] }
    ∧ (allEntries (generate_api_catalog [("A", []), ("A B", [])]
          [("A B", infoAB)])).count
        { apiName := "A B", url := "u", schemaLocation := "s", tag := "rest" }
        = 2 := by
  decide

/-- C4 (amended).  The catalog's entries are, as a multiset, exactly the
pass-1 entries (one block per `(mapping key, match)` pair — a service
matched by several keys appears once per such key) together with the pass-2
standalone entries; a service is processed in pass 1 (and hence excluded
from pass 2) precisely when some mapping key matches it; and for a
duplicate-free registry each unmatched service gets exactly one standalone
entry (their names are distinct). -/
theorem catalog_entry_partition (m : List (String × List String))
    (d : List (String × ServiceInfo)) :
    List.Perm (allEntries (generate_api_catalog m d))
      (pass1Entries m d ++ pass2Entries m d)
    ∧ (∀ s, s ∈ (pass1 m d).2 ↔
        ∃ kf, kf ∈ m ∧ ∃ mt, mt ∈ find_matching_services kf.1 d ∧ mt.1 = s)
    ∧ ((d.map (·.1)).Nodup → ((pass2Entries m d).map (·.apiName)).Nodup) := by
  refine ⟨allEntries_generate_perm m d, mem_pass1_processed m d, fun hnd => ?_⟩
  have hmap : (pass2Entries m d).map (·.apiName)
      = (d.filter (fun p => ¬ p.1 ∈ (pass1 m d).2)).map (·.1) := by
    simp [pass2Entries, standaloneEntry, List.map_map, Function.comp]
  rw [hmap]
  exact List.Nodup.sublist (List.Sublist.map _ (List.filter_sublist d)) hnd

/-- Witness for `catalog_entry_partition`: the nodup-registry conjunct at a
concrete registry. -/
theorem catalog_entry_partition_witness :
    ((pass2Entries [] [("A", infoUpper)]).map (·.apiName)).Nodup :=
  (catalog_entry_partition [] [("A", infoUpper)]).2.2 (by decide)

/-- C5 counterexample.  For base location `"/c.xsd"` the `/` is present but
the directory part is empty, and Python's `if path_part:` then DROPS the
separator: the code returns `"c-47.xsd"`, not the claimed
`"/" + newFilename = "/c-47.xsd"`. -/
theorem rewriter_drops_root_slash_cex :
    rewrite_schema "/c.xsd" "47" = "c-47.xsd"
    ∧ ("c-47.xsd" : String) ≠ "/c-47.xsd" := by
  decide

/-- C5 (amended).  Full characterization of the schema-path rewriter:
empty base gives empty; splitting at the last `/`, the directory is
re-attached with `/` only when it is NON-EMPTY (for bases like `"/c.xsd"`
the leading separator is dropped); without `/` the result is the new
filename alone; the new filename embeds the identifier before the last
`.` when an extension exists, else appends `-id`. -/
theorem schema_rewriter_characterization : ∀ B F : List Char,
    (B = [] → rewrite_schema_chars B F = [])
    ∧ (∀ dir fname, ('/' : Char) ∉ fname → B = dir ++ '/' :: fname →
        rewrite_schema_chars B F =
          if dir = [] then new_filename fname F
          else dir ++ '/' :: new_filename fname F)
    ∧ (('/' : Char) ∉ B → B ≠ [] → rewrite_schema_chars B F = new_filename B F)
    ∧ (∀ stem ext, ('.' : Char) ∉ ext → B = stem ++ '.' :: ext →
        new_filename B F = stem ++ '-' :: (F ++ '.' :: ext))
    ∧ (('.' : Char) ∉ B → new_filename B F = B ++ '-' :: F) := by
  intro B F
  refine ⟨fun hB => by simp [rewrite_schema_chars, hB], ?_, ?_, ?_, ?_⟩
  · intro dir fname hfn hB
    subst hB
    have hne : dir ++ '/' :: fname ≠ [] := by simp
    unfold rewrite_schema_chars
    rw [if_neg hne, rsplitLast_append '/' fname hfn dir]
  · intro hB hne
    unfold rewrite_schema_chars
    rw [if_neg hne, (rsplitLast_eq_none_iff '/' B).mpr hB]
    simp
  · intro stem ext hext hB
    subst hB
    unfold new_filename
    rw [rsplitLast_append '.' ext hext stem]
    simp
  · intro hB
    unfold new_filename
    rw [(rsplitLast_eq_none_iff '.' B).mpr hB]

/-- Witness for `schema_rewriter_characterization`: the directory case at
`"a/b.x"`, identifier `"7"`. -/
theorem schema_rewriter_characterization_witness :
    rewrite_schema_chars ("a/b.x".data) ("7".data) = ("a/b-7.x".data) := by
  have h := (schema_rewriter_characterization ("a/b.x".data) ("7".data)).2.1
    ("a".data) ("b.x".data) (by decide) (by decide)
  rw [h]
  decide

/-- C6 counterexample.  The key `"A"` has ONE function id but TWO
prefix matches (`"A B"`, `"A C"`): the code produces `N` entries per match,
hence 2 entries for the key in total — not "exactly N = 1 across all its
matches combined". -/
theorem key_multi_match_count_cex :
    validate_keys [("A", ["1"])] [("A B", infoAB), ("A C", infoAC)] = true
    ∧ (allEntries (generate_api_catalog [("A", ["1"])]
          [("A B", infoAB), ("A C", infoAC)])).length = 2 := by
  decide

/-- C6 (amended).  Per `(key, match)` pair the builder emits exactly
`N = |functionIds|` entries when the list is non-empty and exactly one when
it is empty; across a key's `M` matches that is `M * N` (resp. `M`)
entries, and pass 1 is the concatenation of these per-key blocks. -/
theorem entries_per_match_count (d : List (String × ServiceInfo))
    (k n : String) (i : ServiceInfo) (fids : List String) :
    (entriesFor n i fids).length = (if fids = [] then 1 else fids.length)
    ∧ (keyEntries k fids d).length
        = (find_matching_services k d).length
            * (if fids = [] then 1 else fids.length)
    ∧ (∀ m, pass1Entries m d
        = m.flatMap (fun kf => keyEntries kf.1 kf.2 d)) := by
  refine ⟨entriesFor_length n i fids, ?_, fun m => rfl⟩
  unfold keyEntries
  generalize find_matching_services k d = ms
  induction ms with
  | nil => simp
  | cons mt rest ih =>
      simp only [List.flatMap_cons, List.length_append, List.length_cons,
        entriesFor_length, ih, Nat.succ_mul]
      omega

/-- C7 counterexample.  A registry tag `"REST"` is stored on the emitted
entry as `"rest"`: the tag field is lowercased on the way into the catalog,
not copied verbatim. -/
theorem tag_not_copied_verbatim_cex :
    allEntries (generate_api_catalog [] [("A", infoUpper)])
      = [{ apiName := "A", url := "u", schemaLocation := "s", tag := "rest" }]
    ∧ infoUpper.tag = "REST"
    ∧ ("rest" : String) ≠ "REST" := by
  decide

/-- C7 (amended).  Every entry of the catalog — from pass 1 and pass 2
alike — carries the url of some registry service copied unmodified, and
that service's tag LOWERCASED (not verbatim). -/
theorem url_copied_tag_lowered (m : List (String × List String))
    (d : List (String × ServiceInfo)) (e : APIEntry)
    (he : e ∈ allEntries (generate_api_catalog m d)) :
    ∃ s info, (s, info) ∈ d ∧ e.url = info.url
      ∧ e.tag = lowerStr info.tag := by
  have hmem := (allEntries_generate_perm m d).mem_iff.mp he
  rcases List.mem_append.mp hmem with h1 | h2
  · unfold pass1Entries at h1
    rcases List.mem_flatMap.mp h1 with ⟨kf, hkf, hke⟩
    unfold keyEntries at hke
    rcases List.mem_flatMap.mp hke with ⟨mt, hmt, hee⟩
    obtain ⟨hu, ht, _⟩ := entriesFor_shape hee
    exact ⟨mt.1, mt.2, find_matching_mem hmt, hu, ht⟩
  · unfold pass2Entries at h2
    rcases List.mem_map.mp h2 with ⟨p, hp, rfl⟩
    exact ⟨p.1, p.2, (List.mem_filter.mp hp).1, rfl, rfl⟩

/-- Witness for `url_copied_tag_lowered`: the standalone entry emitted for
the upper-case-tagged service. -/
theorem url_copied_tag_lowered_witness :
    ∃ s info, (s, info) ∈ [("A", infoUpper)]
      ∧ ({ apiName := "A", url := "u", schemaLocation := "s",
           tag := "rest" } : APIEntry).url = info.url
      ∧ ({ apiName := "A", url := "u", schemaLocation := "s",
           tag := "rest" } : APIEntry).tag = lowerStr info.tag :=
  url_copied_tag_lowered [] [("A", infoUpper)] _ (by decide)

/-- C8.  Completeness of the catalog over a duplicate-free registry when
validation passed: every registry service is referenced by at least one
entry (its own name, or its name extended by a function id, with its url
and lowered tag), and conversely every entry references a registry
service — so the set of services referenced across the catalog is exactly
the registry. -/
theorem catalog_completeness (m : List (String × List String))
    (d : List (String × ServiceInfo)) (hnd : (d.map (·.1)).Nodup)
    (hval : validate_keys m d = true) :
    (∀ s info, (s, info) ∈ d →
      ∃ e, e ∈ allEntries (generate_api_catalog m d) ∧ e.url = info.url
        ∧ e.tag = lowerStr info.tag
        ∧ (e.apiName = s ∨ ∃ fid, e.apiName = s ++ " " ++ fid))
    ∧ (∀ e, e ∈ allEntries (generate_api_catalog m d) →
        ∃ s info, (s, info) ∈ d ∧ e.url = info.url
          ∧ e.tag = lowerStr info.tag
          ∧ (e.apiName = s ∨ ∃ fid, e.apiName = s ++ " " ++ fid)) := by
  have _hval := hval
  constructor
  · intro s info hs
    by_cases hproc : s ∈ (pass1 m d).2
    · rcases (mem_pass1_processed m d s).mp hproc with ⟨kf, hkf, mt, hmt, hmt1⟩
      have hmtd : mt ∈ d := find_matching_mem hmt
      have hmteq : mt = (s, info) := by
        obtain ⟨mt1, mt2⟩ := mt
        simp only at hmt1
        subst hmt1
        have : mt2 = info := nodup_keys_unique hnd hmtd hs
        rw [this]
      rw [hmteq] at hmt
      obtain ⟨e, he⟩ := List.exists_mem_of_ne_nil _ (entriesFor_ne_nil s info kf.2)
      have hep1 : e ∈ pass1Entries m d := by
        unfold pass1Entries
        rw [List.mem_flatMap]
        refine ⟨kf, hkf, ?_⟩
        unfold keyEntries
        rw [List.mem_flatMap]
        exact ⟨(s, info), hmt, he⟩
      have hall : e ∈ allEntries (generate_api_catalog m d) :=
        (allEntries_generate_perm m d).mem_iff.mpr
          (List.mem_append.mpr (Or.inl hep1))
      obtain ⟨hu, ht, hn⟩ := entriesFor_shape he
      refine ⟨e, hall, hu, ht, ?_⟩
      rcases hn with h | ⟨fid, _, h⟩
      · exact Or.inl h
      · exact Or.inr ⟨fid, h⟩
    · have hfil : (s, info) ∈ d.filter (fun p => ¬ p.1 ∈ (pass1 m d).2) :=
        List.mem_filter.mpr ⟨hs, by simpa using hproc⟩
      have hp2 : standaloneEntry s info ∈ pass2Entries m d := by
        unfold pass2Entries
        exact List.mem_map.mpr ⟨(s, info), hfil, rfl⟩
      exact ⟨standaloneEntry s info,
        (allEntries_generate_perm m d).mem_iff.mpr
          (List.mem_append.mpr (Or.inr hp2)),
        rfl, rfl, Or.inl rfl⟩
  · intro e he
    have hmem := (allEntries_generate_perm m d).mem_iff.mp he
    rcases List.mem_append.mp hmem with h1 | h2
    · unfold pass1Entries at h1
      rcases List.mem_flatMap.mp h1 with ⟨kf, hkf, hke⟩
      unfold keyEntries at hke
      rcases List.mem_flatMap.mp hke with ⟨mt, hmt, hee⟩
      obtain ⟨hu, ht, hn⟩ := entriesFor_shape hee
      refine ⟨mt.1, mt.2, find_matching_mem hmt, hu, ht, ?_⟩
      rcases hn with h | ⟨fid, _, h⟩
      · exact Or.inl h
      · exact Or.inr ⟨fid, h⟩
    · unfold pass2Entries at h2
      rcases List.mem_map.mp h2 with ⟨p, hp, rfl⟩
      exact ⟨p.1, p.2, (List.mem_filter.mp hp).1, rfl, rfl, Or.inl rfl⟩

/-- Witness for `catalog_completeness`: the end-to-end registry and
mapping. -/
theorem catalog_completeness_witness :
    ∃ e, e ∈ allEntries (generate_api_catalog [("Get LOV", ["47"])]
        [("Get LOV", infoLOV)])
      ∧ e.url = infoLOV.url ∧ e.tag = lowerStr infoLOV.tag
      ∧ (e.apiName = "Get LOV" ∨ ∃ fid, e.apiName = "Get LOV" ++ " " ++ fid) :=
  (catalog_completeness [("Get LOV", ["47"])] [("Get LOV", infoLOV)]
    (by decide) (by decide)).1 "Get LOV" infoLOV (by decide)

/-- C9.  End-to-end: the one-service registry `Get LOV` with function id
`47` yields exactly the claimed one-group REST catalog and an empty SOAP
category. -/
theorem end_to_end_get_lov :
    generate_api_catalog [("Get LOV", ["47"])] [("Get LOV", infoLOV)]
      = { rest := [("Get LOV",
            [{ apiName := "Get LOV 47", url := "https://x",
               schemaLocation := "s/lov-47.xsd", tag := "rest" }])],
          soap := [] } := by
  decide

/-! ### Registry construction lemmas (C10) -/

theorem lookup_dictInsert_self {α : Type} (d : List (String × α))
    (k : String) (v : α) : lookupDict (dictInsert d k v) k = some v := by
  induction d with
  | nil => simp [dictInsert, lookupDict]
  | cons p rest ih =>
      by_cases hp : p.1 = k
      · simp [dictInsert, hp, lookupDict]
      · simp [dictInsert, hp, lookupDict, ih]

theorem lookup_dictInsert_ne {α : Type} (d : List (String × α))
    (k k' : String) (v : α) (h : k' ≠ k) :
    lookupDict (dictInsert d k v) k' = lookupDict d k' := by
  have hkk : ¬ (k = k') := fun hh => h hh.symm
  induction d with
  | nil => simp [dictInsert, lookupDict, hkk]
  | cons p rest ih =>
      by_cases hp : p.1 = k
      · have h1 : dictInsert (p :: rest) k v = (k, v) :: rest := by
          simp [dictInsert, hp]
        have hpk : ¬ (p.1 = k') := by rw [hp]; exact hkk
        rw [h1]
        simp [lookupDict, hkk, hpk]
      · have h1 : dictInsert (p :: rest) k v = p :: dictInsert rest k v := by
          simp [dictInsert, hp]
        rw [h1]
        by_cases hp' : p.1 = k'
        · simp [lookupDict, hp']
        · simp [lookupDict, hp', ih]

theorem convert_lookup_aux :
    ∀ (arr : List ServiceInfo) (d : List (String × ServiceInfo)) (X : String),
      lookupDict
        (arr.foldl
          (fun d s => if s.apiName ≠ "" then dictInsert d s.apiName s else d) d)
        X
      = ((arr.filter (fun s => s.apiName = X ∧ X ≠ "")).getLast?).elim
          (lookupDict d X) some := by
  intro arr
  induction arr with
  | nil => intro d X; simp
  | cons a rest ih =>
      intro d X
      simp only [List.foldl_cons]
      rw [ih]
      by_cases hP : a.apiName = X ∧ X ≠ ""
      · rw [show List.filter (fun s => s.apiName = X ∧ X ≠ "") (a :: rest)
              = a :: List.filter (fun s => s.apiName = X ∧ X ≠ "") rest
            by simp [List.filter_cons, hP]]
        rw [List.getLast?_cons]
        cases hl : (List.filter (fun s => s.apiName = X ∧ X ≠ "") rest).getLast? with
        | some b => simp [hl]
        | none =>
            simp only [hl, Option.elim, Option.getD]
            have hne : a.apiName ≠ "" := fun hh => hP.2 (hP.1 ▸ hh)
            rw [show (if a.apiName ≠ "" then dictInsert d a.apiName a else d)
                  = dictInsert d X a by rw [if_pos hne, hP.1]]
            rw [lookup_dictInsert_self]
      · rw [show List.filter (fun s => s.apiName = X ∧ X ≠ "") (a :: rest)
              = List.filter (fun s => s.apiName = X ∧ X ≠ "") rest
            by simp [List.filter_cons, hP]]
        by_cases ha : a.apiName = ""
        · rw [show (if a.apiName ≠ "" then dictInsert d a.apiName a else d) = d
              by simp [ha]]
        · have hx : X ≠ a.apiName := by
            intro hxa
            apply hP
            refine ⟨hxa.symm, ?_⟩
            intro hX
            exact ha (by rw [← hxa]; exact hX)
          rw [show (if a.apiName ≠ "" then dictInsert d a.apiName a else d)
                = dictInsert d a.apiName a by rw [if_pos ha]]
          rw [lookup_dictInsert_ne d a.apiName X a hx]

/-- C10.  The registry built by `convert_services_to_dict` maps a non-empty
name `X` to the LAST array element named `X` (and holds no binding for
`X` when no element carries that non-empty name, in particular none for
the empty name); and the Matcher only ever returns pairs of that registry,
so skipped elements can never be matched or emitted. -/
theorem services_dict_last_wins :
    ∀ (arr : List ServiceInfo) (X K : String) (p : String × ServiceInfo),
      (lookupDict (convert_services_to_dict arr) X
        = if X = "" then none
          else (arr.filter (fun s => s.apiName = X)).getLast?)
      ∧ (p ∈ find_matching_services K (convert_services_to_dict arr) →
          p ∈ convert_services_to_dict arr) := by
  intro arr X K p
  refine ⟨?_, fun hp => find_matching_mem hp⟩
  unfold convert_services_to_dict
  rw [convert_lookup_aux arr [] X]
  by_cases hX : X = ""
  · subst hX
    rw [if_pos rfl]
    rw [show List.filter (fun s => s.apiName = "" ∧ ("" : String) ≠ "") arr = []
        from List.filter_eq_nil_iff.mpr (fun a _ => by simp)]
    simp [lookupDict]
  · rw [if_neg hX]
    rw [show List.filter (fun s => s.apiName = X ∧ X ≠ "") arr
          = List.filter (fun s => s.apiName = X) arr
        from List.filter_congr (fun a _ => by simp [hX])]
    cases hl : (List.filter (fun s => s.apiName = X) arr).getLast? with
    | some b => simp [hl]
    | none => simp [hl, lookupDict]

/-- Witness for `services_dict_last_wins`: the matcher result pair for an
exact match lies in the constructed registry. -/
theorem services_dict_last_wins_witness :
    ("B", infoB) ∈ convert_services_to_dict [infoB] :=
  (services_dict_last_wins [infoB] "B" "B" ("B", infoB)).2 (by decide)

end APICatalog
